import Mathlib

/-!
Verification of the image-to-MIDI converter (`src/main.py`).

The three core components are shallowly embedded over the rationals:

* `hsv_to_midi_params` — the Mapper (`main.py` lines 86–106);
* `colors_are_close`   — the similarity predicate (lines 109–121);
* `create_midi_from_colors` — the Sequencer fold (lines 124–193),
  modelled as explicit state passing over a `SeqState` record, with the
  calls to `midi.addNote` collected into the `notes` list.

Python floats are modelled as `ℚ` (every literal appearing in the program
and in the claims is exactly representable), and Python's `int(...)`
truncation toward zero is modelled by `pyInt`.
-/

/-- Python's `int()` applied to a float: truncation toward zero. -/
def pyInt (q : ℚ) : ℤ := if q < 0 then ⌈q⌉ else ⌊q⌋

/-- One sample `(x, y, h, s, v)` as appended by `extract_hsv_data`:
column, row, and HSV rescaled to degrees / percentages. -/
structure ColorSample where
  x : ℕ
  y : ℕ
  h : ℚ
  s : ℚ
  v : ℚ
deriving DecidableEq, Repr

/-- One `midi.addNote(track, channel, pitch, start, duration, velocity)`
call, restricted to the per-note data (track and channel are the
constants 0). -/
structure NoteEvent where
  pitch : ℤ
  startTime : ℚ
  duration : ℚ
  velocity : ℤ
deriving DecidableEq, Repr

/-- `hsv_to_midi_params(h, s, v)` from `main.py` lines 86–106. -/
def hsv_to_midi_params (h s v : ℚ) : ℤ × ℤ :=
  let base_pitch := h / 360 * 12
  let octave_shift := v / 100 * 7
  let pitch := pyInt (21 + (octave_shift * 12) + base_pitch)
  let pitch := max 21 (min 108 pitch)
  let velocity := pyInt (20 + (s / 100) * 107)
  let velocity := max 20 (min 127 velocity)
  (pitch, velocity)

/-- `colors_are_close(hsv1, hsv2, threshold_h, threshold_s, threshold_v)`
from `main.py` lines 109–121.  The thresholds default to 15 in Python;
the Sequencer calls it with the defaults. -/
def colors_are_close (hsv1 hsv2 : ℚ × ℚ × ℚ)
    (threshold_h : ℚ := 15) (threshold_s : ℚ := 15) (threshold_v : ℚ := 15) :
    Bool :=
  let (h1, s1, v1) := hsv1
  let (h2, s2, v2) := hsv2
  let hue_diff := |h1 - h2|
  let hue_diff := if hue_diff > 180 then 360 - hue_diff else hue_diff
  decide (hue_diff ≤ threshold_h) &&
    decide (|s1 - s2| ≤ threshold_s) &&
    decide (|v1 - v2| ≤ threshold_v)

/-- `eighth_note = 0.5` (`main.py` line 142): the time-unit-step in beats. -/
def eighth_note : ℚ := 1 / 2

/-- The mutable loop state of `create_midi_from_colors`
(`main.py` lines 144–149), together with the list of notes already
handed to `midi.addNote`. -/
structure SeqState where
  current_time : ℚ
  prev_hsv : Option (ℚ × ℚ × ℚ)
  note_start_time : ℚ
  current_pitch : Option ℤ
  current_velocity : Option ℤ
  accumulated_duration : ℚ
  notes : List NoteEvent
deriving Repr

/-- The state before the loop (`main.py` lines 144–149). -/
def initState : SeqState :=
  { current_time := 0
    prev_hsv := none
    note_start_time := 0
    current_pitch := none
    current_velocity := none
    accumulated_duration := 0
    notes := [] }

/-- The `else` branch of the loop body (`main.py` lines 161–171): flush the
in-progress note if one exists, then start a new note at `current_time`
with the current sample's mapped pitch and velocity. -/
def startNewNote (st : SeqState) (pitch velocity : ℤ) : SeqState :=
  let notes :=
    match st.current_pitch, st.current_velocity with
    | some p, some w =>
        st.notes ++ [⟨p, st.note_start_time, st.accumulated_duration, w⟩]
    | _, _ => st.notes
  { st with
      notes := notes
      note_start_time := st.current_time
      current_pitch := some pitch
      current_velocity := some velocity
      accumulated_duration := eighth_note }

/-- One iteration of the loop of `create_midi_from_colors`
(`main.py` lines 154–174): `pv.1` is the sample's mapped pitch and
`pv.2` its mapped velocity. -/
def processSample (st : SeqState) (c : ColorSample) : SeqState :=
  let pv := hsv_to_midi_params c.h c.s c.v
  let st' :=
    match st.prev_hsv with
    | some prev =>
        if colors_are_close (c.h, c.s, c.v) prev then
          { st with accumulated_duration := st.accumulated_duration + eighth_note }
        else
          startNewNote st pv.1 pv.2
    | none => startNewNote st pv.1 pv.2
  { st' with
      prev_hsv := some (c.h, c.s, c.v)
      current_time := st'.current_time + eighth_note }

/-- The per-note flush after the loop (`main.py` lines 180–183). -/
def flushNotes (st : SeqState) : List NoteEvent :=
  match st.current_pitch, st.current_velocity with
  | some p, some w =>
      st.notes ++ [⟨p, st.note_start_time, st.accumulated_duration, w⟩]
  | _, _ => st.notes

/-- The state after the whole loop has run on `color_data`. -/
def runSequencer (color_data : List ColorSample) : SeqState :=
  color_data.foldl processSample initState

/-- All `midi.addNote` calls issued by `create_midi_from_colors` on
`color_data`, in order (loop emissions plus the final flush). -/
def emittedNotes (color_data : List ColorSample) : List NoteEvent :=
  flushNotes (runSequencer color_data)

/-- `create_midi_from_colors(color_data, ...)` (`main.py` lines 124–193):
`none` models the early `return` on empty input, before the `MIDIFile`
object is even created (lines 131–133); `some notes` models a written
MIDI file containing exactly `notes`. -/
def create_midi_from_colors (color_data : List ColorSample) :
    Option (List NoteEvent) :=
  if color_data = [] then none
  else some (emittedNotes color_data)

/-! Spec-side definitions, written from the spec's words, to be compared
with the code-side definitions above. -/

/-- The circular hue distance of spec §4.3:
`hueDiff = |h1-h2|; if hueDiff > 180 then hueDiff = 360 - hueDiff`. -/
def hueDist (h1 h2 : ℚ) : ℚ :=
  if |h1 - h2| > 180 then 360 - |h1 - h2| else |h1 - h2|

/-- The spec's pitch formula (§4.2): `pitch = 21 + octaveShift*12 + basePitch`
with `basePitch = hue/360 * 12` and `octaveShift = value/100 * 7`, truncated
to an integer and clamped to `[21, 108]`. -/
def specPitch (h v : ℚ) : ℤ :=
  max 21 (min 108 (pyInt (21 + (v / 100 * 7) * 12 + h / 360 * 12)))

/-- The spec's velocity formula (§4.2): `velocity = 20 + saturation/100 * 107`,
truncated to an integer and clamped to `[20, 127]`. -/
def specVelocity (s : ℚ) : ℤ :=
  max 20 (min 127 (pyInt (20 + s / 100 * 107)))

/-! Auxiliary predicates and measures for the Sequencer invariants. -/

/-- A duration that is a whole positive number of time-unit-steps. -/
def durOk (n : NoteEvent) : Prop :=
  ∃ k : ℕ, 1 ≤ k ∧ n.duration = (k : ℚ) * eighth_note

/-- `ChainFrom t ns`: the notes `ns` tile the time axis starting at `t`
(each starts where its predecessor ended) and every duration is a whole
positive number of steps. -/
def ChainFrom : ℚ → List NoteEvent → Prop
  | _, [] => True
  | t, n :: rest =>
      n.startTime = t ∧ durOk n ∧ ChainFrom (n.startTime + n.duration) rest

/-- Where a chain of notes starting at `t` ends. -/
def endAt (t : ℚ) : List NoteEvent → ℚ
  | [] => t
  | n :: rest => endAt (n.startTime + n.duration) rest

/-- Total duration of a list of notes. -/
def sumDur (ns : List NoteEvent) : ℚ :=
  (ns.map NoteEvent.duration).sum

/-- The internal invariant holding of the Sequencer state after at least
one sample has been processed. -/
structure SeqInv (st : SeqState) : Prop where
  pitch_isSome : st.current_pitch.isSome
  velocity_isSome : st.current_velocity.isSome
  chain : ChainFrom 0 st.notes
  ends_at_start : endAt 0 st.notes = st.note_start_time
  time_eq : st.note_start_time + st.accumulated_duration = st.current_time
  acc_ok : ∃ k : ℕ, 1 ≤ k ∧ st.accumulated_duration = (k : ℚ) * eighth_note
  sum_eq : sumDur st.notes + st.accumulated_duration = st.current_time

/-! Concrete inputs used by the spec's scenarios and by witnesses. -/

/-- The merging scenario of spec §8:
`[(h=10,s=50,v=50), (h=12,s=52,v=51), (h=200,s=50,v=50)]`. -/
def sampleRun : List ColorSample :=
  [⟨0, 0, 10, 50, 50⟩, ⟨0, 1, 12, 52, 51⟩, ⟨0, 2, 200, 50, 50⟩]

/-- The Sequencer state after processing the first sample of `sampleRun`. -/
def stW : SeqState :=
  ⟨1/2, some (10, 50, 50), 0, some 63, some 73, 1/2, []⟩

/-- The second sample of `sampleRun`, close in color to the first. -/
def cW : ColorSample := ⟨0, 1, 12, 52, 51⟩

/-- Three samples whose hues differ pairwise by more than 15 degrees. -/
def farRun : List ColorSample :=
  [⟨0, 0, 10, 50, 50⟩, ⟨0, 1, 40, 50, 50⟩, ⟨0, 2, 80, 50, 50⟩]

/-! Theorems. -/

/-- C6: `colors_are_close a b` is true iff the circular hue distance is within
`threshold_h` and the saturation and value gaps are within their thresholds;
in particular `(359,50,50)` and `(1,50,50)` are close at the default 15/15/15
thresholds. -/
theorem close_iff_thresholds :
    (∀ (a b : ℚ × ℚ × ℚ) (tH tS tV : ℚ),
        colors_are_close a b tH tS tV = true ↔
          hueDist a.1 b.1 ≤ tH ∧ |a.2.1 - b.2.1| ≤ tS ∧ |a.2.2 - b.2.2| ≤ tV) ∧
    colors_are_close (359, 50, 50) (1, 50, 50) 15 15 15 = true := by
  constructor
  · rintro ⟨h1, s1, v1⟩ ⟨h2, s2, v2⟩ tH tS tV
    simp [colors_are_close, hueDist, and_assoc]
  · simp only [colors_are_close]
    norm_num

/-- C7: `colors_are_close` is symmetric in its two color arguments, for any
thresholds. -/
theorem close_symm (a b : ℚ × ℚ × ℚ) (tH tS tV : ℚ) :
    colors_are_close a b tH tS tV = colors_are_close b a tH tS tV := by
  obtain ⟨h1, s1, v1⟩ := a
  obtain ⟨h2, s2, v2⟩ := b
  simp only [colors_are_close]
  rw [abs_sub_comm h1 h2, abs_sub_comm s1 s2, abs_sub_comm v1 v2]

/-- C4: on documented input ranges the Mapper's pitch lies in `[21, 108]` and
its velocity in `[20, 127]` (and, being a total Lean function, it raises no
exception). -/
theorem mapper_in_range (h s v : ℚ)
    (hh : 0 ≤ h ∧ h < 360) (hs : 0 ≤ s ∧ s ≤ 100) (hv : 0 ≤ v ∧ v ≤ 100) :
    21 ≤ (hsv_to_midi_params h s v).1 ∧ (hsv_to_midi_params h s v).1 ≤ 108 ∧
      20 ≤ (hsv_to_midi_params h s v).2 ∧ (hsv_to_midi_params h s v).2 ≤ 127 := by
  simp only [hsv_to_midi_params]
  exact ⟨le_max_left _ _, max_le (by norm_num) (min_le_left _ _),
    le_max_left _ _, max_le (by norm_num) (min_le_left _ _)⟩

/-- Witness for C4 at `(h, s, v) = (10, 50, 50)`. -/
theorem mapper_in_range_witness :
    21 ≤ (hsv_to_midi_params 10 50 50).1 ∧ (hsv_to_midi_params 10 50 50).1 ≤ 108 ∧
      20 ≤ (hsv_to_midi_params 10 50 50).2 ∧ (hsv_to_midi_params 10 50 50).2 ≤ 127 :=
  mapper_in_range 10 50 50 (by norm_num) (by norm_num) (by norm_num)

/-- C5: on documented input ranges the Mapper computes exactly the spec's
pitch formula (truncate `21 + (v/100*7)*12 + h/360*12`, clamp to `[21,108]`)
and velocity formula (truncate `20 + s/100*107`, clamp to `[20,127]`). -/
theorem mapper_matches_spec_formula (h s v : ℚ)
    (hh : 0 ≤ h ∧ h < 360) (hs : 0 ≤ s ∧ s ≤ 100) (hv : 0 ≤ v ∧ v ≤ 100) :
    hsv_to_midi_params h s v = (specPitch h v, specVelocity s) := by
  simp only [hsv_to_midi_params, specPitch, specVelocity]

/-- Witness for C5 at `(h, s, v) = (10, 50, 50)`. -/
theorem mapper_matches_spec_formula_witness :
    hsv_to_midi_params 10 50 50 = (specPitch 10 50, specVelocity 50) :=
  mapper_matches_spec_formula 10 50 50 (by norm_num) (by norm_num) (by norm_num)

/-- C10: the Mapper's pitch depends only on hue and value, and its velocity
depends only on saturation. -/
theorem mapper_dependency_separation :
    (∀ h v s1 s2 : ℚ, (hsv_to_midi_params h s1 v).1 = (hsv_to_midi_params h s2 v).1) ∧
    (∀ s h1 v1 h2 v2 : ℚ, (hsv_to_midi_params h1 s v1).2 = (hsv_to_midi_params h2 s v2).2) :=
  ⟨fun _ _ _ _ => rfl, fun _ _ _ _ _ => rfl⟩

/-! Shape lemmas describing the two branches of the Sequencer loop body. -/

/-- Merge branch of the loop: the previous color exists and is close. -/
theorem processSample_merge (st : SeqState) (c : ColorSample) (prev : ℚ × ℚ × ℚ)
    (hp : st.prev_hsv = some prev)
    (hc : colors_are_close (c.h, c.s, c.v) prev = true) :
    processSample st c =
      { st with
          accumulated_duration := st.accumulated_duration + eighth_note
          prev_hsv := some (c.h, c.s, c.v)
          current_time := st.current_time + eighth_note } := by
  simp [processSample, hp, hc]

/-- New-note branch of the loop, taken when no previous color exists. -/
theorem processSample_start_none (st : SeqState) (c : ColorSample)
    (hp : st.prev_hsv = none) :
    processSample st c =
      { startNewNote st (hsv_to_midi_params c.h c.s c.v).1
            (hsv_to_midi_params c.h c.s c.v).2 with
          prev_hsv := some (c.h, c.s, c.v)
          current_time := st.current_time + eighth_note } := by
  simp [processSample, hp, startNewNote]

/-- New-note branch of the loop, taken when the previous color is not close. -/
theorem processSample_start_far (st : SeqState) (c : ColorSample) (prev : ℚ × ℚ × ℚ)
    (hp : st.prev_hsv = some prev)
    (hc : colors_are_close (c.h, c.s, c.v) prev = false) :
    processSample st c =
      { startNewNote st (hsv_to_midi_params c.h c.s c.v).1
            (hsv_to_midi_params c.h c.s c.v).2 with
          prev_hsv := some (c.h, c.s, c.v)
          current_time := st.current_time + eighth_note } := by
  simp [processSample, hp, hc, startNewNote]

/-- The loop emission (`main.py` lines 163–165) hands over exactly the notes
the final flush (lines 181–183) would have produced. -/
theorem startNewNote_notes (st : SeqState) (p w : ℤ) :
    (startNewNote st p w).notes = flushNotes st := rfl

/-- Evaluation of `flushNotes` when a note is in progress. -/
theorem flushNotes_of_isSome (st : SeqState) (p w : ℤ)
    (hp : st.current_pitch = some p) (hw : st.current_velocity = some w) :
    flushNotes st = st.notes ++ [⟨p, st.note_start_time, st.accumulated_duration, w⟩] := by
  simp [flushNotes, hp, hw]

/-! Lemmas about chains of contiguous notes. -/

theorem chainFrom_append (t : ℚ) (l : List NoteEvent) (n : NoteEvent)
    (hl : ChainFrom t l) (hn : n.startTime = endAt t l) (hd : durOk n) :
    ChainFrom t (l ++ [n]) := by
  induction l generalizing t with
  | nil => exact ⟨hn, hd, trivial⟩
  | cons m rest ih =>
      obtain ⟨hm, hdm, hrest⟩ := hl
      exact ⟨hm, hdm, ih _ hrest hn⟩

theorem endAt_append (t : ℚ) (l : List NoteEvent) (n : NoteEvent) :
    endAt t (l ++ [n]) = n.startTime + n.duration := by
  induction l generalizing t with
  | nil => rfl
  | cons m rest ih => exact ih _

theorem sumDur_append (l : List NoteEvent) (n : NoteEvent) :
    sumDur (l ++ [n]) = sumDur l + n.duration := by
  simp [sumDur]

/-! Preservation of the Sequencer invariant. -/

/-- The merge branch preserves the invariant. -/
theorem seqInv_merge_state (st : SeqState) (hsv : ℚ × ℚ × ℚ) (hinv : SeqInv st) :
    SeqInv { st with
        accumulated_duration := st.accumulated_duration + eighth_note
        prev_hsv := some hsv
        current_time := st.current_time + eighth_note } := by
  obtain ⟨hp, hw, hch, hend, htime, ⟨k, hk, hacc⟩, hsum⟩ := hinv
  refine ⟨hp, hw, hch, hend, ?_, ⟨k + 1, by omega, ?_⟩, ?_⟩
  · simp only
    rw [← htime]; ring
  · simp only
    rw [hacc]; push_cast; ring
  · simp only
    rw [← hsum]; ring

/-- The new-note branch preserves the invariant. -/
theorem seqInv_start_state (st : SeqState) (p w : ℤ) (hsv : ℚ × ℚ × ℚ)
    (hinv : SeqInv st) :
    SeqInv { startNewNote st p w with
        prev_hsv := some hsv
        current_time := st.current_time + eighth_note } := by
  obtain ⟨hp, hw, hch, hend, htime, ⟨k, hk, hacc⟩, hsum⟩ := hinv
  obtain ⟨p₀, hp₀⟩ := Option.isSome_iff_exists.mp hp
  obtain ⟨w₀, hw₀⟩ := Option.isSome_iff_exists.mp hw
  have hflush : flushNotes st =
      st.notes ++ [⟨p₀, st.note_start_time, st.accumulated_duration, w₀⟩] :=
    flushNotes_of_isSome st p₀ w₀ hp₀ hw₀
  refine ⟨rfl, rfl, ?_, ?_, ?_, ⟨1, le_refl 1, by simp [startNewNote]⟩, ?_⟩
  · show ChainFrom 0 (startNewNote st p w).notes
    rw [startNewNote_notes, hflush]
    exact chainFrom_append 0 st.notes _ hch hend.symm ⟨k, hk, hacc⟩
  · show endAt 0 (startNewNote st p w).notes = st.current_time
    rw [startNewNote_notes, hflush, endAt_append]
    exact htime
  · show st.current_time + (startNewNote st p w).accumulated_duration =
      st.current_time + eighth_note
    rfl
  · show sumDur (startNewNote st p w).notes + (startNewNote st p w).accumulated_duration =
      st.current_time + eighth_note
    rw [startNewNote_notes, hflush, sumDur_append]
    show sumDur st.notes + st.accumulated_duration + eighth_note = _
    rw [hsum]

/-- The loop body preserves the invariant. -/
theorem seqInv_processSample (st : SeqState) (c : ColorSample) (hinv : SeqInv st) :
    SeqInv (processSample st c) := by
  cases hprev : st.prev_hsv with
  | none =>
      rw [processSample_start_none st c hprev]
      exact seqInv_start_state st _ _ _ hinv
  | some prev =>
      cases hc : colors_are_close (c.h, c.s, c.v) prev with
      | true =>
          rw [processSample_merge st c prev hprev hc]
          exact seqInv_merge_state st _ hinv
      | false =>
          rw [processSample_start_far st c prev hprev hc]
          exact seqInv_start_state st _ _ _ hinv

/-- The invariant holds after the very first sample is processed. -/
theorem seqInv_first (c : ColorSample) : SeqInv (processSample initState c) := by
  rw [processSample_start_none initState c rfl]
  refine ⟨rfl, rfl, trivial, rfl, ?_, ⟨1, le_refl 1, by simp [startNewNote]⟩, ?_⟩
  · show (0 : ℚ) + eighth_note = 0 + eighth_note
    rfl
  · show sumDur [] + eighth_note = 0 + eighth_note
    rw [show sumDur [] = 0 from rfl]

/-- The invariant is preserved by folding the loop over any sample list. -/
theorem seqInv_foldl (l : List ColorSample) (st : SeqState) (hinv : SeqInv st) :
    SeqInv (l.foldl processSample st) := by
  induction l generalizing st with
  | nil => exact hinv
  | cons c rest ih => exact ih _ (seqInv_processSample st c hinv)

/-- The invariant holds of the final loop state on any non-empty input. -/
theorem seqInv_runSequencer (c : ColorSample) (rest : List ColorSample) :
    SeqInv (runSequencer (c :: rest)) :=
  seqInv_foldl rest (processSample initState c) (seqInv_first c)

/-! The beat clock advances by one step per consumed sample. -/

theorem currentTime_processSample (st : SeqState) (c : ColorSample) :
    (processSample st c).current_time = st.current_time + eighth_note := by
  cases hprev : st.prev_hsv with
  | none => rw [processSample_start_none st c hprev]
  | some prev =>
      cases hc : colors_are_close (c.h, c.s, c.v) prev with
      | true => rw [processSample_merge st c prev hprev hc]
      | false => rw [processSample_start_far st c prev hprev hc]

theorem currentTime_foldl (l : List ColorSample) (st : SeqState) :
    (l.foldl processSample st).current_time =
      st.current_time + (l.length : ℚ) * eighth_note := by
  induction l generalizing st with
  | nil => simp
  | cons c rest ih =>
      rw [List.foldl_cons, ih, currentTime_processSample, List.length_cons]
      push_cast
      ring

/-! Extracting the claimed per-index properties from a chain. -/

theorem chainFrom_durations (t : ℚ) (l : List NoteEvent) (h : ChainFrom t l) :
    ∀ n ∈ l, durOk n := by
  induction l generalizing t with
  | nil => intro n hn; exact absurd hn (List.not_mem_nil n)
  | cons m rest ih =>
      obtain ⟨hm, hdm, hrest⟩ := h
      intro n hn
      rcases List.mem_cons.mp hn with hn | hn
      · exact hn ▸ hdm
      · exact ih _ hrest n hn

theorem chainFrom_adjacent (t : ℚ) (l : List NoteEvent) (h : ChainFrom t l) :
    ∀ (i : ℕ) (a b : NoteEvent), l[i]? = some a → l[i + 1]? = some b →
      a.startTime + a.duration = b.startTime := by
  induction l generalizing t with
  | nil => intro i a b ha; simp at ha
  | cons m rest ih =>
      obtain ⟨hm, hdm, hrest⟩ := h
      intro i a b ha hb
      cases i with
      | zero =>
          rw [List.getElem?_cons_zero, Option.some.injEq] at ha
          rw [List.getElem?_cons_succ] at hb
          cases rest with
          | nil => simp at hb
          | cons m2 rest2 =>
              obtain ⟨hm2, _, _⟩ := hrest
              rw [List.getElem?_cons_zero, Option.some.injEq] at hb
              rw [← ha, ← hb, hm2]
      | succ j =>
          rw [List.getElem?_cons_succ] at ha hb
          exact ih _ hrest j a b ha hb

theorem chainFrom_start_le (t : ℚ) (l : List NoteEvent) (h : ChainFrom t l) :
    ∀ (i : ℕ) (a : NoteEvent), l[i]? = some a → t ≤ a.startTime := by
  induction l generalizing t with
  | nil => intro i a ha; simp at ha
  | cons m rest ih =>
      obtain ⟨hm, ⟨k, hk, hdur⟩, hrest⟩ := h
      intro i a ha
      cases i with
      | zero =>
          rw [List.getElem?_cons_zero, Option.some.injEq] at ha
          rw [← ha, hm]
      | succ j =>
          rw [List.getElem?_cons_succ] at ha
          have htail := ih _ hrest j a ha
          have hnn : 0 ≤ m.duration := by
            rw [hdur, eighth_note]
            positivity
          calc t = m.startTime := hm.symm
            _ ≤ m.startTime + m.duration := le_add_of_nonneg_right hnn
            _ ≤ a.startTime := htail

theorem chainFrom_mono (t : ℚ) (l : List NoteEvent) (h : ChainFrom t l) :
    ∀ (i j : ℕ) (a b : NoteEvent), i ≤ j → l[i]? = some a → l[j]? = some b →
      a.startTime ≤ b.startTime := by
  induction l generalizing t with
  | nil => intro i j a b _ ha; simp at ha
  | cons m rest ih =>
      obtain ⟨hm, ⟨k, hk, hdur⟩, hrest⟩ := h
      intro i j a b hij ha hb
      cases i with
      | zero =>
          rw [List.getElem?_cons_zero, Option.some.injEq] at ha
          cases j with
          | zero =>
              rw [List.getElem?_cons_zero, Option.some.injEq] at hb
              rw [← ha, ← hb]
          | succ j2 =>
              rw [List.getElem?_cons_succ] at hb
              have htail := chainFrom_start_le _ _ hrest j2 b hb
              have hnn : 0 ≤ m.duration := by
                rw [hdur, eighth_note]
                positivity
              calc a.startTime = m.startTime := by rw [ha]
                _ ≤ m.startTime + m.duration := le_add_of_nonneg_right hnn
                _ ≤ b.startTime := htail
      | succ i2 =>
          cases j with
          | zero => omega
          | succ j2 =>
              rw [List.getElem?_cons_succ] at ha hb
              exact ih _ hrest i2 j2 a b (by omega) ha hb

/-! The flushed output of an invariant-satisfying state. -/

theorem chainFrom_flush (st : SeqState) (hinv : SeqInv st) :
    ChainFrom 0 (flushNotes st) := by
  obtain ⟨hp, hw, hch, hend, htime, hacc, hsum⟩ := hinv
  obtain ⟨p₀, hp₀⟩ := Option.isSome_iff_exists.mp hp
  obtain ⟨w₀, hw₀⟩ := Option.isSome_iff_exists.mp hw
  rw [flushNotes_of_isSome st p₀ w₀ hp₀ hw₀]
  exact chainFrom_append 0 st.notes _ hch hend.symm hacc

theorem sumDur_flush (st : SeqState) (hinv : SeqInv st) :
    sumDur (flushNotes st) = st.current_time := by
  obtain ⟨hp, hw, hch, hend, htime, hacc, hsum⟩ := hinv
  obtain ⟨p₀, hp₀⟩ := Option.isSome_iff_exists.mp hp
  obtain ⟨w₀, hw₀⟩ := Option.isSome_iff_exists.mp hw
  rw [flushNotes_of_isSome st p₀ w₀ hp₀ hw₀, sumDur_append]
  exact hsum

theorem length_flush (st : SeqState) (hinv : SeqInv st) :
    (flushNotes st).length = st.notes.length + 1 := by
  obtain ⟨p₀, hp₀⟩ := Option.isSome_iff_exists.mp hinv.pitch_isSome
  obtain ⟨w₀, hw₀⟩ := Option.isSome_iff_exists.mp hinv.velocity_isSome
  rw [flushNotes_of_isSome st p₀ w₀ hp₀ hw₀]
  simp

/-- The chain property holds of the full output on every input. -/
theorem chainFrom_emittedNotes (l : List ColorSample) :
    ChainFrom 0 (emittedNotes l) := by
  cases l with
  | nil => trivial
  | cons c rest => exact chainFrom_flush _ (seqInv_runSequencer c rest)

/-- Concrete evaluation of the merging scenario of spec §8. -/
theorem emittedNotes_sampleRun :
    emittedNotes sampleRun = [⟨63, 0, 1, 73⟩, ⟨69, 1, 1/2, 73⟩] := by
  simp only [emittedNotes, runSequencer, sampleRun, List.foldl, processSample, startNewNote,
    hsv_to_midi_params, colors_are_close, initState, eighth_note, flushNotes, pyInt]
  norm_num

/-- C1: whenever a previous HSV triple exists and the current sample is close
to it, the loop only extends the in-progress note by one step — pitch,
velocity, and the already-emitted notes are untouched (the current sample's
own mapped values are discarded); and on the spec's merging scenario the
Sequencer emits exactly 2 NoteEvents, of 2 steps and 1 step. -/
theorem merge_extends_run (st : SeqState) (c : ColorSample) (prev : ℚ × ℚ × ℚ)
    (hp : st.prev_hsv = some prev)
    (hc : colors_are_close (c.h, c.s, c.v) prev = true) :
    ((processSample st c).accumulated_duration = st.accumulated_duration + eighth_note ∧
      (processSample st c).current_pitch = st.current_pitch ∧
      (processSample st c).current_velocity = st.current_velocity ∧
      (processSample st c).notes = st.notes) ∧
    (emittedNotes sampleRun).length = 2 ∧
    (emittedNotes sampleRun).map NoteEvent.duration =
      [2 * eighth_note, 1 * eighth_note] := by
  refine ⟨?_, ?_, ?_⟩
  · rw [processSample_merge st c prev hp hc]
    exact ⟨rfl, rfl, rfl, rfl⟩
  · rw [emittedNotes_sampleRun]
    rfl
  · rw [emittedNotes_sampleRun]
    simp [eighth_note]

/-- Witness for C1: the second sample of `sampleRun` merges into the note
started by the first. -/
theorem merge_extends_run_witness :
    ((processSample stW cW).accumulated_duration = stW.accumulated_duration + eighth_note ∧
      (processSample stW cW).current_pitch = stW.current_pitch ∧
      (processSample stW cW).current_velocity = stW.current_velocity ∧
      (processSample stW cW).notes = stW.notes) ∧
    (emittedNotes sampleRun).length = 2 ∧
    (emittedNotes sampleRun).map NoteEvent.duration =
      [2 * eighth_note, 1 * eighth_note] :=
  merge_extends_run stW cW (10, 50, 50) rfl
    (by simp only [cW, colors_are_close]; norm_num)

/-- C2: the emitted NoteEvents are contiguous and non-overlapping
(`startTime[i] + duration[i] = startTime[i+1]`), their start times are
monotonically non-decreasing in emission order, and every duration is a
whole number of time-unit-steps and at least one step. -/
theorem sequencer_invariants (samples : List ColorSample) :
    (∀ (i : ℕ) (a b : NoteEvent),
        (emittedNotes samples)[i]? = some a → (emittedNotes samples)[i + 1]? = some b →
        a.startTime + a.duration = b.startTime) ∧
    (∀ (i j : ℕ) (a b : NoteEvent), i ≤ j →
        (emittedNotes samples)[i]? = some a → (emittedNotes samples)[j]? = some b →
        a.startTime ≤ b.startTime) ∧
    (∀ n ∈ emittedNotes samples, ∃ k : ℕ, 1 ≤ k ∧ n.duration = (k : ℚ) * eighth_note) :=
  ⟨chainFrom_adjacent 0 _ (chainFrom_emittedNotes samples),
    chainFrom_mono 0 _ (chainFrom_emittedNotes samples),
    chainFrom_durations 0 _ (chainFrom_emittedNotes samples)⟩

/-- Witness for C2 on the merging scenario: the first note ends exactly where
the second begins. -/
theorem sequencer_invariants_witness :
    (⟨63, 0, 1, 73⟩ : NoteEvent).startTime + (⟨63, 0, 1, 73⟩ : NoteEvent).duration =
      (⟨69, 1, 1/2, 73⟩ : NoteEvent).startTime :=
  (sequencer_invariants sampleRun).1 0 ⟨63, 0, 1, 73⟩ ⟨69, 1, 1/2, 73⟩
    (by rw [emittedNotes_sampleRun]; rfl) (by rw [emittedNotes_sampleRun]; rfl)

/-- C3: on any non-empty input of length N the durations of the emitted
NoteEvents sum to N time-unit-steps. -/
theorem total_duration (samples : List ColorSample) (hne : samples ≠ []) :
    sumDur (emittedNotes samples) = (samples.length : ℚ) * eighth_note := by
  cases samples with
  | nil => exact absurd rfl hne
  | cons c rest =>
      rw [emittedNotes, sumDur_flush _ (seqInv_runSequencer c rest),
        runSequencer, currentTime_foldl]
      simp [initState]

/-- Witness for C3 on the merging scenario: total duration is 3 steps. -/
theorem total_duration_witness :
    sumDur (emittedNotes sampleRun) = (sampleRun.length : ℚ) * eighth_note :=
  total_duration sampleRun (by simp [sampleRun])

/-- C8: on empty input nothing is emitted and no file is written (the early
return fires before the MIDI object exists); on any non-empty input the
final flush guarantees at least one NoteEvent. -/
theorem empty_and_flush_behavior :
    create_midi_from_colors [] = none ∧
    ∀ samples : List ColorSample, samples ≠ [] →
      ∃ ns, create_midi_from_colors samples = some ns ∧ 1 ≤ ns.length := by
  refine ⟨rfl, ?_⟩
  intro samples hne
  refine ⟨emittedNotes samples, by simp [create_midi_from_colors, hne], ?_⟩
  cases samples with
  | nil => exact absurd rfl hne
  | cons c rest =>
      rw [emittedNotes, length_flush _ (seqInv_runSequencer c rest)]
      omega

/-- Witness for C8 on the merging scenario. -/
theorem empty_and_flush_behavior_witness :
    ∃ ns, create_midi_from_colors sampleRun = some ns ∧ 1 ≤ ns.length :=
  empty_and_flush_behavior.2 sampleRun (by simp [sampleRun])

/-! No-merge counting: samples with pairwise-distant hues. -/

/-- Colors whose circular hue distance exceeds the hue threshold are never
close, whatever their saturations and values. -/
theorem close_false_of_far (h1 s1 v1 h2 s2 v2 : ℚ) (hfar : 15 < hueDist h1 h2) :
    colors_are_close (h1, s1, v1) (h2, s2, v2) = false := by
  have hnle : ¬ ((if |h1 - h2| > 180 then 360 - |h1 - h2| else |h1 - h2|) ≤ 15) := by
    rw [hueDist] at hfar
    exact not_le.mpr hfar
  simp [colors_are_close, hnle]

/-- The loop body always records the current sample as the new previous HSV. -/
theorem prevHsv_processSample (st : SeqState) (c : ColorSample) :
    (processSample st c).prev_hsv = some (c.h, c.s, c.v) := by
  cases hprev : st.prev_hsv with
  | none => rw [processSample_start_none st c hprev]
  | some prev =>
      cases hc : colors_are_close (c.h, c.s, c.v) prev with
      | true => rw [processSample_merge st c prev hprev hc]
      | false => rw [processSample_start_far st c prev hprev hc]

/-- Starting a new note grows the would-be flushed output by exactly one. -/
theorem flushLen_startNewNote (st : SeqState) (p w : ℤ) :
    (flushNotes (startNewNote st p w)).length = (flushNotes st).length + 1 := by
  cases hp : st.current_pitch <;> cases hw : st.current_velocity <;>
    simp [flushNotes, startNewNote, hp, hw]

/-- When the else branch runs, the flushed-output count grows by one. -/
theorem flushLen_processSample_far (st : SeqState) (c : ColorSample)
    (hfar : ∀ prev, st.prev_hsv = some prev →
      colors_are_close (c.h, c.s, c.v) prev = false) :
    (flushNotes (processSample st c)).length = (flushNotes st).length + 1 := by
  cases hprev : st.prev_hsv with
  | none =>
      rw [processSample_start_none st c hprev]
      exact flushLen_startNewNote st _ _
  | some prev =>
      rw [processSample_start_far st c prev hprev (hfar prev hprev)]
      exact flushLen_startNewNote st _ _

/-- Folding over samples whose consecutive hues are far apart (and whose head
is far from the state's previous HSV) emits one note per sample. -/
theorem flushLen_foldl_far (l : List ColorSample) (st : SeqState)
    (hchain : l.Chain' (fun a b => 15 < hueDist b.h a.h))
    (hprev : ∀ q c, st.prev_hsv = some q → l.head? = some c → 15 < hueDist c.h q.1) :
    (flushNotes (l.foldl processSample st)).length = (flushNotes st).length + l.length := by
  induction l generalizing st with
  | nil => simp
  | cons c rest ih =>
      obtain ⟨hhead, htail⟩ := List.chain'_cons'.mp hchain
      have hstep : (flushNotes (processSample st c)).length = (flushNotes st).length + 1 := by
        apply flushLen_processSample_far
        intro prev hp
        obtain ⟨h2, s2, v2⟩ := prev
        exact close_false_of_far c.h c.s c.v h2 s2 v2 (hprev (h2, s2, v2) c hp rfl)
      rw [List.foldl_cons, ih (processSample st c) htail ?_, hstep, List.length_cons]
      · omega
      · intro q c2 hq hc2
        rw [prevHsv_processSample, Option.some.injEq] at hq
        subst hq
        exact hhead c2 hc2

/-- The circular hue distance is symmetric. -/
theorem hueDist_comm (h1 h2 : ℚ) : hueDist h1 h2 = hueDist h2 h1 := by
  rw [hueDist, hueDist, abs_sub_comm]

/-- C9: if the samples' hues are pairwise more than 15 degrees apart
(circularly), no merging happens and the Sequencer emits exactly one
NoteEvent per sample. -/
theorem no_merge_counts (samples : List ColorSample)
    (hfar : samples.Pairwise (fun a b => 15 < hueDist a.h b.h)) :
    (emittedNotes samples).length = samples.length := by
  have hfar2 : samples.Pairwise (fun a b => 15 < hueDist b.h a.h) :=
    hfar.imp (by intro a b hab; rwa [hueDist_comm])
  have h := flushLen_foldl_far samples initState hfar2.chain'
    (by intro q c hq _; simp [initState] at hq)
  rw [emittedNotes, runSequencer]
  rw [h]
  simp [flushNotes, initState]

/-- Witness for C9: three samples with hues 10, 40, 80. -/
theorem no_merge_counts_witness :
    (emittedNotes farRun).length = farRun.length :=
  no_merge_counts farRun
    (by simp [farRun, List.pairwise_cons, hueDist]; norm_num)
